import Mathlib

/-!
# Verification of the Lyra backward abstract-interpretation engine

Shallow embedding of `engine/backward.py` (`BackwardInterpreter.analyze`)
together with the data model it depends on.  The engine code is transcribed
from the source; the control-flow graph, the abstract-domain state contract
and the analysis-result store are modelled from the specification (their
definitions say so in their doc comments).  The engine is generic over the
construct type `C` (statements and conditions) and the state type `S`.
-/

namespace Lyra

/-- Edge kinds of the CFG (`core.cfg.Edge.Kind`).
Modelled from the spec: `Default` (fall-through), `IfIn`/`IfOut`
(crossing into/out of an `if` scope), `LoopIn`/`LoopOut` (crossing
into/out of a loop scope).  Whether an edge is additionally a
`Conditional` edge carrying a condition is recorded separately on the
edge, matching the `isinstance(edge, Conditional)` test of
`backward.py` which is independent of the `edge.kind` dispatch. -/
inductive EdgeKind where
  | Default
  | IfIn
  | IfOut
  | LoopIn
  | LoopOut
deriving DecidableEq, Repr

/-- Node kinds (`core.cfg.Basic`, `core.cfg.Loop`, `core.cfg.Conditional`).
Modelled from the spec: a `Basic` node carries an ordered list of
statements; `Loop` and `Conditional` nodes carry none. -/
inductive NodeKind (C : Type) where
  | Basic (stmts : List C)
  | Loop
  | Conditional
deriving DecidableEq, Repr

/-- A CFG node. Modelled from the spec: nodes carry a stable identifier
and are immutable once built. -/
structure Node (C : Type) where
  id : Nat
  kind : NodeKind C
deriving DecidableEq, Repr

/-- Test `isinstance(current, Basic)`. -/
def Node.isBasic {C : Type} (n : Node C) : Bool :=
  match n.kind with
  | .Basic _ => true
  | _ => false

/-- Test `isinstance(current, Loop)`. -/
def Node.isLoop {C : Type} (n : Node C) : Bool :=
  match n.kind with
  | .Loop => true
  | _ => false

/-- A directed CFG edge. Modelled from the spec: directed source→target,
tagged with a kind; `cond = some c` models a `Conditional` edge carrying
condition `c` (`Conditional` is an edge subclass in the source, so an
edge has both a kind and, possibly, a condition). -/
structure Edge (C : Type) where
  source : Node C
  target : Node C
  kind : EdgeKind
  cond : Option C := none
deriving DecidableEq, Repr

/-- The control-flow graph. Modelled from the spec: `nodes`,
`out_edges(node)`, `predecessors(node)`, distinguished `in_node` and
`out_node`; queries are plain adjacency lookups. -/
structure ControlFlowGraph (C : Type) where
  nodes : List (Node C)
  edges : List (Edge C)
  in_node : Node C
  out_node : Node C
deriving DecidableEq, Repr

/-- Query `cfg.out_edges(n)`: the edges whose source is `n`.
Modelled from the spec: adjacency lookup only. -/
def ControlFlowGraph.outEdges {C : Type} (cfg : ControlFlowGraph C) (n : Node C) :
    List (Edge C) :=
  cfg.edges.filter (fun e => e.source.id = n.id)

/-- Query `cfg.predecessors(n)`: the sources of the edges whose target is `n`.
Modelled from the spec: adjacency lookup only. -/
def ControlFlowGraph.predecessors {C : Type} (cfg : ControlFlowGraph C) (n : Node C) :
    List (Node C) :=
  (cfg.edges.filter (fun e => e.target.id = n.id)).map (fun e => e.source)

/-- The abstract-domain state contract (`abstract_domains.state.State`).
Modelled from the spec: `bottom`, `join`, `less_equal`, `widening`, the
four scope-transition endomorphisms and `filter`.  All operations are
value-producing; the embedding is pure, so the copy discipline of the
source (`deepcopy` before every use) is the identity here. -/
structure AbsDom (S : Type) where
  bottom : S
  join : S → S → S
  less_equal : S → S → Bool
  widening : S → S → S
  enter_if : S → S
  exit_if : S → S
  enter_loop : S → S
  exit_loop : S → S
  filter : S → S

/-- The analysis-result store (`engine.result.AnalysisResult`), a map from
nodes to state sequences, kept as an association list keyed by node
identifier.  Modelled from the spec: `get_node_result` returns the stored
sequence, or an explicit unset signal (`none`) if never written;
`set_node_result` overwrites the stored sequence. -/
abbrev ResultStore (C S : Type) : Type := List (Node C × List S)

/-- Query `result.get_node_result(node)` — `none` is the explicit unset signal.
Modelled from the spec (§4.4). -/
def getNodeResult {C S : Type} (store : ResultStore C S) (n : Node C) :
    Option (List S) :=
  (store.find? (fun p => p.1.id = n.id)).map (fun p => p.2)

/-- Update `result.set_node_result(node, states)` — overwrite, inserting if absent.
Modelled from the spec (§4.4). -/
def setNodeResult {C S : Type} (store : ResultStore C S) (n : Node C)
    (states : List S) : ResultStore C S :=
  match store with
  | [] => [(n, states)]
  | p :: rest =>
      if p.1.id = n.id then (n, states) :: rest
      else p :: setNodeResult rest n states

/-- The empty result store (a freshly constructed interpreter). -/
def emptyStore (C S : Type) : ResultStore C S := []

/-- Lookup in the per-node iteration-count map
(`iterations[current.identifier]`, backward.py line 33);  `none` models the
lookup failing on a node absent from `cfg.nodes`. -/
def iterLookup (its : List (Nat × Nat)) (id : Nat) : Option Nat :=
  (its.find? (fun p => p.1 = id)).map (fun p => p.2)

/-- Pointwise update of the iteration-count map
(`iterations[current.identifier] = iteration + 1`, backward.py line 81). -/
def iterSet (its : List (Nat × Nat)) (id : Nat) (v : Nat) : List (Nat × Nat) :=
  match its with
  | [] => [(id, v)]
  | p :: rest => if p.1 = id then (id, v) :: rest else p :: iterSet rest id v

/-- The state threaded through the worklist loop of `analyze`
(backward.py lines 27-33): the FIFO worklist (`put` appends at the
tail, `get` pops the head), the iteration counts, and the result store
(`self.result`).  `writes` counts `set_node_result` calls and `popLog`
records the identifiers popped, in order; both are ghost
instrumentation used only to state properties of a run. -/
structure Config (C S : Type) where
  worklist : List (Node C)
  iterations : List (Nat × Nat)
  result : ResultStore C S
  writes : Nat
  popLog : List Nat
deriving DecidableEq

/-- Transformation of one successor contribution (backward.py lines
48-60): read the target's stored sequence at entry 0 (failing, like the
Python indexing of an unset result, when the target has no stored
sequence or an empty one), apply the scope operator selected by the edge
kind, then `semantics` of the condition followed by `filter` for a
conditional edge. -/
def edgeSuccessor {C S : Type} (dom : AbsDom S) (sem : C → S → S)
    (store : ResultStore C S) (e : Edge C) : Option S :=
  match getNodeResult store e.target with
  | none => none
  | some l =>
    match l.head? with
    | none => none
    | some s0 =>
      let s1 :=
        match e.kind with
        | .IfIn => dom.exit_if s0
        | .IfOut => dom.enter_if s0
        | .LoopIn => dom.exit_loop s0
        | .LoopOut => dom.enter_loop s0
        | .Default => s0
      match e.cond with
      | some c => some (dom.filter (sem c s1))
      | none => some s1

/-- The body of the join loop (backward.py lines 47-61): one edge's
contribution joined onto the accumulator, propagating failure. -/
def accumStep {C S : Type} (dom : AbsDom S) (sem : C → S → S)
    (store : ResultStore C S) (acc : Option S) (e : Edge C) : Option S :=
  match acc with
  | none => none
  | some a =>
    match edgeSuccessor dom sem store e with
    | none => none
    | some s => some (dom.join a s)

/-- The accumulated exit state of a popped node before any widening
(backward.py lines 42-61): `initial` for the out-node, otherwise the
join, started from `bottom()`, of the transformed successor
contributions of all out-edges; `none` when some contribution fails. -/
def computeAccum {C S : Type} (dom : AbsDom S) (sem : C → S → S) (initial : S)
    (cfg : ControlFlowGraph C) (store : ResultStore C S) (current : Node C) :
    Option S :=
  if current.id = cfg.out_node.id then some initial
  else (cfg.outEdges current).foldl (accumStep dom sem store) (some dom.bottom)

/-- The widening step (backward.py lines 62-64): for a `Loop` node whose
iteration count strictly exceeds the configured threshold, replace the
accumulated value by `(previous or bottom()).widening(accumulated)`;
otherwise leave it unchanged. -/
def applyWidening {C S : Type} (dom : AbsDom S) (widening : Nat)
    (current : Node C) (iteration : Nat) (previous : Option S) (accum : S) : S :=
  if current.isLoop ∧ widening < iteration then
    dom.widening (previous.getD dom.bottom) accum
  else accum

/-- The full exit-state computation of a popped node (backward.py lines
42-64): the accumulated value, then — only inside the
`current.identifier != out_node.identifier` branch — the widening step.
The supplied `initial` for the out-node is the value `computeAccum`
already produced. -/
def computeEntry {C S : Type} (dom : AbsDom S) (sem : C → S → S) (widening : Nat)
    (initial : S) (cfg : ControlFlowGraph C) (store : ResultStore C S)
    (current : Node C) (iteration : Nat) (previous : Option S) : Option S :=
  match computeAccum dom sem initial cfg store current with
  | none => none
  | some accum =>
      some (if current.id = cfg.out_node.id then accum
            else applyWidening dom widening current iteration previous accum)

/-- The sequence stored for a node (backward.py lines 68-76):
`deque([entry])`, then for a `Basic` node walk the statements in reverse,
applying `semantics` once per statement and prepending each result;
`Loop` and `Conditional` nodes keep the single entry. -/
def blockStates {C S : Type} (sem : C → S → S) (current : Node C) (entry : S) :
    List S :=
  match current.kind with
  | .Basic stmts =>
      (stmts.reverse.foldl
        (fun (acc : List S × S) stmt =>
          let s := sem stmt acc.2
          (s :: acc.1, s))
        ([entry], entry)).1
  | _ => [entry]

/-- Outcome of one worklist iteration. -/
inductive StepOut (C S : Type) where
  | done
  | next (c : Config C S)
  | fail
deriving DecidableEq

/-- One iteration of the worklist loop of `analyze` (backward.py lines
31-81): pop the head node, read its iteration count, read the previous
exit state (last element of the stored sequence, failing like the Python
`[-1]` on an empty stored sequence), compute the new exit state, and
either recompute and store the node's sequence — pushing every
predecessor and incrementing the counter — or, when the new exit state
is `less_equal` the previous one, do nothing further. -/
def step {C S : Type} (dom : AbsDom S) (sem : C → S → S) (widening : Nat)
    (initial : S) (cfg : ControlFlowGraph C) (c : Config C S) : StepOut C S :=
  match c.worklist with
  | [] => .done
  | current :: rest =>
    match iterLookup c.iterations current.id with
    | none => .fail
    | some iteration =>
      let previousOpt : Option (Option S) :=
        match getNodeResult c.result current with
        | none => some none
        | some l =>
          match l.getLast? with
          | none => none
          | some p => some (some p)
      match previousOpt with
      | none => .fail
      | some previous =>
        match computeEntry dom sem widening initial cfg c.result current iteration previous with
        | none => .fail
        | some entry =>
          let skip :=
            match previous with
            | none => false
            | some p => dom.less_equal entry p
          if skip then
            .next { c with worklist := rest, popLog := c.popLog ++ [current.id] }
          else
            .next { worklist := rest ++ cfg.predecessors current,
                    iterations := iterSet c.iterations current.id (iteration + 1),
                    result := setNodeResult c.result current (blockStates sem current entry),
                    writes := c.writes + 1,
                    popLog := c.popLog ++ [current.id] }

/-- Outcome of a bounded run of the worklist loop. -/
inductive RunResult (C S : Type) where
  | finished (c : Config C S)
  | fail
  | fuelOut
deriving DecidableEq

/-- The worklist loop (`while not worklist.empty()`), bounded by fuel;
`fuelOut` only marks fuel exhaustion and never corresponds to a source
behaviour. -/
def run {C S : Type} (dom : AbsDom S) (sem : C → S → S) (widening : Nat)
    (initial : S) (cfg : ControlFlowGraph C) :
    Nat → Config C S → RunResult C S
  | 0, _ => .fuelOut
  | fuel + 1, c =>
    match step dom sem widening initial cfg c with
    | .done => .finished c
    | .fail => .fail
    | .next c' => run dom sem widening initial cfg fuel c'

/-- Entry point `BackwardInterpreter.analyze(initial)` started from a given result
store (`self.result` persists on the interpreter object between calls):
worklist seeded with `out_node`, iteration count `0` for every node of
the CFG. -/
def analyzeWith {C S : Type} (fuel : Nat) (store : ResultStore C S)
    (dom : AbsDom S) (sem : C → S → S) (widening : Nat) (initial : S)
    (cfg : ControlFlowGraph C) : RunResult C S :=
  run dom sem widening initial cfg fuel
    { worklist := [cfg.out_node],
      iterations := cfg.nodes.map (fun n => (n.id, 0)),
      result := store,
      writes := 0,
      popLog := [] }

/-- Entry point `BackwardInterpreter.analyze(initial)` on a freshly constructed
interpreter (empty result store). -/
def analyze {C S : Type} (fuel : Nat) (dom : AbsDom S) (sem : C → S → S)
    (widening : Nat) (initial : S) (cfg : ControlFlowGraph C) : RunResult C S :=
  analyzeWith fuel (emptyStore C S) dom sem widening initial cfg

/-- The final result store of a finished run. -/
def RunResult.storeOf {C S : Type} : RunResult C S → Option (ResultStore C S)
  | .finished c => some c.result
  | _ => none

/-- The number of `set_node_result` calls of a finished run. -/
def RunResult.writesOf {C S : Type} : RunResult C S → Option Nat
  | .finished c => some c.writes
  | _ => none

/-- The pop log of a finished run. -/
def RunResult.popLogOf {C S : Type} : RunResult C S → Option (List Nat)
  | .finished c => some c.popLog
  | _ => none

/-- The final iteration count of a node in a finished run. -/
def RunResult.iterOf {C S : Type} (r : RunResult C S) (id : Nat) : Option Nat :=
  match r with
  | .finished c => iterLookup c.iterations id
  | _ => none

/-- The `next` configuration of a step outcome. -/
def StepOut.nextOf {C S : Type} : StepOut C S → Option (Config C S)
  | .next c => some c
  | _ => none

/-!
## A free (syntactic) abstract domain

States are terms recording exactly which domain operations were applied
to build them.  Instantiating the generic engine with this domain makes
the engine's operation applications observable: in particular, a
`widen` constructor occurs in a result precisely where the engine
invoked `widening`.
-/

/-- Free states: terms over the domain signature.  `initS` is the
initial (boundary) state; `semF c s` records an application of the
backward semantics of construct `c`. -/
inductive FS where
  | bot
  | initS
  | joinF (a b : FS)
  | widen (a b : FS)
  | enterIfF (a : FS)
  | exitIfF (a : FS)
  | enterLoopF (a : FS)
  | exitLoopF (a : FS)
  | filt (a : FS)
  | semF (c : Nat) (a : FS)
deriving DecidableEq, Repr

/-- The free domain: every operation builds the corresponding term;
`less_equal` is syntactic equality (a legal partial order). -/
def freeDom : AbsDom FS where
  bottom := .bot
  join := .joinF
  less_equal := fun a b => a = b
  widening := .widen
  enter_if := .enterIfF
  exit_if := .exitIfF
  enter_loop := .enterLoopF
  exit_loop := .exitLoopF
  filter := .filt

/-- The free backward semantics: record the construct applied. -/
def freeSem : Nat → FS → FS := .semF

/-- Holds (`true`) when no `widen` constructor occurs in the term. -/
def widenFree : FS → Bool
  | .bot => true
  | .initS => true
  | .joinF a b => widenFree a && widenFree b
  | .widen _ _ => false
  | .enterIfF a => widenFree a
  | .exitIfF a => widenFree a
  | .enterLoopF a => widenFree a
  | .exitLoopF a => widenFree a
  | .filt a => widenFree a
  | .semF _ a => widenFree a

/-!
## Concrete control-flow graphs used as inputs

Node identifiers: each graph lists its nodes with distinct identifiers;
`Basic []` marks entry/exit nodes without statements.
-/

/-- Scenario C of the spec: `in → LoopHeader ⇄ Basic[x:=x-1] → out` with a
`LoopIn` edge into the body, a `Default` back edge, and a `Conditional`
`LoopOut` exit edge (condition label `9`); the body holds one statement
(label `1`). -/
def loopCFG : ControlFlowGraph Nat :=
  let inN : Node Nat := ⟨0, .Basic []⟩
  let header : Node Nat := ⟨1, .Loop⟩
  let body : Node Nat := ⟨2, .Basic [1]⟩
  let outN : Node Nat := ⟨3, .Basic []⟩
  { nodes := [inN, header, body, outN],
    edges := [⟨inN, header, .Default, none⟩,
              ⟨header, body, .LoopIn, none⟩,
              ⟨body, header, .Default, none⟩,
              ⟨header, outN, .LoopOut, some 9⟩],
    in_node := inN,
    out_node := outN }

/-- A branching graph: `in → A`, `A → out`, `A → M`, `M → out`; when `A`
is popped, `M` has not been visited yet. -/
def branchCFG : ControlFlowGraph Nat :=
  let inN : Node Nat := ⟨0, .Basic []⟩
  let a : Node Nat := ⟨1, .Conditional⟩
  let m : Node Nat := ⟨2, .Basic [1]⟩
  let outN : Node Nat := ⟨3, .Basic []⟩
  { nodes := [inN, a, m, outN],
    edges := [⟨inN, a, .Default, none⟩,
              ⟨a, outN, .Default, none⟩,
              ⟨a, m, .Default, none⟩,
              ⟨m, outN, .Default, none⟩],
    in_node := inN,
    out_node := outN }

/-- A diamond: `in → c`, `c → a`, `c → b`, `a → j`, `b → j`, `j → out`;
node `c` is pushed twice (once per popped branch) and therefore popped
twice. -/
def diamondCFG : ControlFlowGraph Nat :=
  let inN : Node Nat := ⟨0, .Basic []⟩
  let c : Node Nat := ⟨1, .Conditional⟩
  let a : Node Nat := ⟨2, .Basic []⟩
  let b : Node Nat := ⟨3, .Basic []⟩
  let j : Node Nat := ⟨4, .Basic []⟩
  let outN : Node Nat := ⟨5, .Basic []⟩
  { nodes := [inN, c, a, b, j, outN],
    edges := [⟨inN, c, .Default, none⟩,
              ⟨c, a, .Default, none⟩,
              ⟨c, b, .Default, none⟩,
              ⟨a, j, .Default, none⟩,
              ⟨b, j, .Default, none⟩,
              ⟨j, outN, .Default, none⟩],
    in_node := inN,
    out_node := outN }

/-- A two-node cycle whose out-node is a `Loop` node: `a → loopOut`,
`loopOut → a`.  Every node is reachable from `in_node = a` and
co-reachable to `out_node`, so the graph satisfies the CFG invariant,
yet the out-node is a `Loop` node that is popped a second time with
iteration count `1`. -/
def loopExitCFG : ControlFlowGraph Nat :=
  let a : Node Nat := ⟨1, .Basic []⟩
  let outN : Node Nat := ⟨9, .Loop⟩
  { nodes := [a, outN],
    edges := [⟨a, outN, .Default, none⟩,
              ⟨outN, a, .Default, none⟩],
    in_node := a,
    out_node := outN }

/-- A straight line: `in → B[2 stmts] → out`. -/
def lineCFG : ControlFlowGraph Nat :=
  let inN : Node Nat := ⟨0, .Basic []⟩
  let b : Node Nat := ⟨1, .Basic [1, 2]⟩
  let outN : Node Nat := ⟨2, .Basic []⟩
  { nodes := [inN, b, outN],
    edges := [⟨inN, b, .Default, none⟩,
              ⟨b, outN, .Default, none⟩],
    in_node := inN,
    out_node := outN }

/-!
## Specification-side definitions

Written from the words of §4.5 step 4 of the specification, to be
compared with the source-transcribed `computeAccum`.
-/

/-- The spec's per-edge contribution: "take the target's stored
pre-state (entry 0; a not-yet-visited target contributes nothing, i.e.
is treated as `bottom()`), apply the scope operator inverse to the
edge's forward meaning — `IfIn→exit_if()`, `IfOut→enter_if()`,
`LoopIn→exit_loop()`, `LoopOut→enter_loop()` — apply `semantics()` of
the edge's condition followed by `filter()` for `Conditional` edges". -/
def specEdgeContrib {C S : Type} (dom : AbsDom S) (sem : C → S → S)
    (store : ResultStore C S) (e : Edge C) : S :=
  let s0 := ((getNodeResult store e.target).bind List.head?).getD dom.bottom
  let s1 :=
    match e.kind with
    | .IfIn => dom.exit_if s0
    | .IfOut => dom.enter_if s0
    | .LoopIn => dom.exit_loop s0
    | .LoopOut => dom.enter_loop s0
    | .Default => s0
  match e.cond with
  | some c => dom.filter (sem c s1)
  | none => s1

/-- The spec's case split for the new post-state: "If `current is
out_node`: post-state = `initial_state`.  Else: start from `bottom()`;
for each out-edge [take the contribution] and accumulate via `join`." -/
def specPostState {C S : Type} (dom : AbsDom S) (sem : C → S → S) (initial : S)
    (cfg : ControlFlowGraph C) (store : ResultStore C S) (current : Node C) : S :=
  if current.id = cfg.out_node.id then initial
  else
    (cfg.outEdges current).foldl
      (fun acc e => dom.join acc (specEdgeContrib dom sem store e)) dom.bottom

/-- The spec's sequence-length invariant, per node: a Basic node with
`k` statements has `k+1` entries, a Loop or Conditional node has `1`. -/
def expectedLen {C : Type} (n : Node C) : Nat :=
  match n.kind with
  | .Basic stmts => stmts.length + 1
  | _ => 1

/-!
## Theorems
-/

/-- C2: the claim states that an out-edge whose target has no stored
result yet contributes nothing (is treated as `bottom()`) and that the
post-state computation still completes.  The code instead indexes the
unset result of the target (`get_node_result(edge.target)[0]`,
backward.py line 48) with no guard, so the computation fails: on
`branchCFG`, node `A` (id 1) is popped right after the out-node, its
out-edge to `M` (id 2) finds `M` unvisited, and the whole analysis
fails instead of completing with `M` contributing `bottom()`. -/
theorem unvisited_successor_read_fails :
    analyze 20 freeDom freeSem 2 FS.initS branchCFG = .fail := by decide

/-- C5: the claim states that in Scenario C (a CFG with a Loop header on
a cycle, widening threshold 1) the loop header's post-state on its
second worklist pass is produced via widening.  The code never reaches a
second pass: at the header's *first* pop its out-edge into the loop body
reads the body's unset result (backward.py line 48) and the analysis
fails. -/
theorem scenario_c_fails_before_second_pass :
    analyze 20 freeDom freeSem 1 FS.initS loopCFG = .fail := by decide

/-- C3 counterexample: the claim says widening is applied exactly when
the popped node is a Loop node whose iteration count exceeds the
threshold.  On `loopExitCFG` (threshold 0) the out-node (id 9) is a Loop
node, is popped twice (`popLog = [9, 1, 9]`, so its second pop reads
iteration count 1 > 0), and yet its stored post-state stays `initS` —
in the free domain a widening application would be a `widen` term, and
none occurs anywhere in the final store, because the widening block
(backward.py lines 62-64) sits inside the
`current.identifier != out_node.identifier` branch and is unreachable
for the out-node. -/
theorem widening_skipped_on_loop_out_node :
    analyze 10 freeDom freeSem 0 FS.initS loopExitCFG =
      .finished { worklist := [],
                  iterations := [(1, 1), (9, 1)],
                  result := [(⟨9, .Loop⟩, [FS.initS]),
                             (⟨1, .Basic []⟩, [FS.joinF FS.bot FS.initS])],
                  writes := 2,
                  popLog := [9, 1, 9] } := by decide

/-- C4 counterexample: the claim says every pop pushes every predecessor
and increments the node's iteration counter, including pops where the
new post-state is `less_equal` the previous one.  On `diamondCFG` node
`c` (id 1) is popped twice (`popLog` counts 2) but its final iteration
count is 1, and its predecessor `in` (id 0) is popped only once — the
second pop of `c` reaches a local fixpoint, and the code (backward.py
lines 78-81) pushes no predecessor and performs no increment there
because both statements sit inside the recompute branch. -/
theorem local_fixpoint_pop_no_step8 :
    ((analyze 30 freeDom freeSem 5 FS.initS diamondCFG).popLogOf.map
        (fun l => l.count 1) = some 2) ∧
    (analyze 30 freeDom freeSem 5 FS.initS diamondCFG).iterOf 1 = some 1 ∧
    ((analyze 30 freeDom freeSem 5 FS.initS diamondCFG).popLogOf.map
        (fun l => l.count 0) = some 1) := by decide

/-- C7: `analyze` is deterministic — two runs with identical CFG,
identical domain operations and semantics, identical widening threshold,
fuel and initial state produce identical results; the engine keeps no
hidden state beyond its arguments. -/
theorem analyze_deterministic {C S : Type} (fuel₁ fuel₂ : Nat)
    (dom₁ dom₂ : AbsDom S) (sem₁ sem₂ : C → S → S) (w₁ w₂ : Nat)
    (init₁ init₂ : S) (cfg₁ cfg₂ : ControlFlowGraph C)
    (hf : fuel₁ = fuel₂) (hd : dom₁ = dom₂) (hs : sem₁ = sem₂) (hw : w₁ = w₂)
    (hi : init₁ = init₂) (hc : cfg₁ = cfg₂) :
    analyze fuel₁ dom₁ sem₁ w₁ init₁ cfg₁ = analyze fuel₂ dom₂ sem₂ w₂ init₂ cfg₂ := by
  subst hf; subst hd; subst hs; subst hw; subst hi; subst hc; rfl

/-- Witness for C7 at a concrete input. -/
theorem analyze_deterministic_witness :
    analyze 20 freeDom freeSem 5 FS.initS lineCFG =
      analyze 20 freeDom freeSem 5 FS.initS lineCFG :=
  analyze_deterministic 20 20 freeDom freeDom freeSem freeSem 5 5 FS.initS
    FS.initS lineCFG lineCFG rfl rfl rfl rfl rfl rfl

/-- C10: a node popped with no previously stored result is always
recomputed and stored during that pop — the `less_equal` guard
(backward.py line 67) short-circuits on `previous is None` and can never
skip a first visit — and every one of the node's predecessors is put on
the worklist. -/
theorem first_visit_always_stores {C S : Type} (dom : AbsDom S) (sem : C → S → S)
    (w : Nat) (initial : S) (cfg : ControlFlowGraph C) (c : Config C S)
    (current : Node C) (rest : List (Node C)) (it : Nat) (e : S)
    (hw : c.worklist = current :: rest)
    (hit : iterLookup c.iterations current.id = some it)
    (hres : getNodeResult c.result current = none)
    (hentry : computeEntry dom sem w initial cfg c.result current it none = some e) :
    step dom sem w initial cfg c =
      .next { worklist := rest ++ cfg.predecessors current,
              iterations := iterSet c.iterations current.id (it + 1),
              result := setNodeResult c.result current (blockStates sem current e),
              writes := c.writes + 1,
              popLog := c.popLog ++ [current.id] }
      ∧ ∀ q ∈ cfg.predecessors current, q ∈ rest ++ cfg.predecessors current := by
  refine ⟨?_, fun q hq => List.mem_append_right rest hq⟩
  unfold step
  simp only [hw, hit, hres, hentry]
  rfl

/-- Witness for C10: the very first pop of a fresh run of `lineCFG`
stores the out-node's sequence and enqueues its predecessor. -/
theorem first_visit_always_stores_witness :
    step freeDom freeSem 5 FS.initS lineCFG
        { worklist := [⟨2, .Basic []⟩],
          iterations := [(0, 0), (1, 0), (2, 0)],
          result := [],
          writes := 0,
          popLog := [] } =
      .next { worklist := [] ++ lineCFG.predecessors ⟨2, .Basic []⟩,
              iterations := iterSet [(0, 0), (1, 0), (2, 0)] 2 (0 + 1),
              result := setNodeResult [] ⟨2, .Basic []⟩
                (blockStates freeSem ⟨2, .Basic []⟩ FS.initS),
              writes := 0 + 1,
              popLog := [] ++ [2] }
      ∧ ∀ q ∈ lineCFG.predecessors ⟨2, .Basic []⟩,
          q ∈ [] ++ lineCFG.predecessors ⟨2, .Basic []⟩ :=
  first_visit_always_stores freeDom freeSem 5 FS.initS lineCFG _
    ⟨2, .Basic []⟩ [] 0 FS.initS rfl (by decide) (by decide) (by decide)

/-- C4 amended: after the local-fixpoint test (backward.py line 67) the
engine pushes predecessors and increments the iteration counter only in
the recompute branch; when the new post-state is `less_equal` the
previous one the pop changes nothing except consuming the worklist head
— stored result, iteration counts and worklist additions are all
skipped, not just the stored result. -/
theorem step8_exactly_on_recompute {C S : Type} (dom : AbsDom S) (sem : C → S → S)
    (w : Nat) (initial : S) (cfg : ControlFlowGraph C) (c : Config C S)
    (current : Node C) (rest : List (Node C)) (it : Nat) (l : List S) (p : S) (e : S)
    (hw : c.worklist = current :: rest)
    (hit : iterLookup c.iterations current.id = some it)
    (hres : getNodeResult c.result current = some l)
    (hlast : l.getLast? = some p)
    (hentry : computeEntry dom sem w initial cfg c.result current it (some p) = some e) :
    step dom sem w initial cfg c =
      if dom.less_equal e p then
        .next { c with worklist := rest, popLog := c.popLog ++ [current.id] }
      else
        .next { worklist := rest ++ cfg.predecessors current,
                iterations := iterSet c.iterations current.id (it + 1),
                result := setNodeResult c.result current (blockStates sem current e),
                writes := c.writes + 1,
                popLog := c.popLog ++ [current.id] } := by
  unfold step
  simp only [hw, hit, hres, hlast, hentry]

/-- Folding the join loop from a failed accumulator stays failed. -/
theorem accumStep_fold_none {C S : Type} (dom : AbsDom S) (sem : C → S → S)
    (store : ResultStore C S) (es : List (Edge C)) :
    es.foldl (accumStep dom sem store) none = none := by
  induction es with
  | nil => rfl
  | cons e es ih => rw [List.foldl_cons]; exact ih

/-- States read back from a widening-free store are widening-free. -/
theorem widenFree_getNodeResult (st : ResultStore Nat FS) (n : Node Nat) (l : List FS)
    (hst : ∀ pr ∈ st, ∀ x ∈ pr.2, widenFree x = true)
    (h : getNodeResult st n = some l) : ∀ x ∈ l, widenFree x = true := by
  unfold getNodeResult at h
  cases hf : st.find? (fun p => p.1.id = n.id) with
  | none => rw [hf] at h; cases h
  | some pr =>
    rw [hf, Option.map_some'] at h
    have hmem := List.mem_of_find?_eq_some hf
    cases h
    exact hst pr hmem

/-- The per-edge successor transformation applies no widening. -/
theorem widenFree_edgeSuccessor (st : ResultStore Nat FS) (e : Edge Nat) (s : FS)
    (hst : ∀ pr ∈ st, ∀ x ∈ pr.2, widenFree x = true)
    (h : edgeSuccessor freeDom freeSem st e = some s) : widenFree s = true := by
  obtain ⟨esrc, etgt, ek, econd⟩ := e
  unfold edgeSuccessor at h
  cases hg : getNodeResult st etgt with
  | none => rw [hg] at h; cases h
  | some l =>
    rw [hg] at h
    have hl := widenFree_getNodeResult st etgt l hst hg
    cases l with
    | nil => cases h
    | cons s0 tl =>
      have h0 : widenFree s0 = true := hl s0 (by simp)
      simp only [List.head?_cons] at h
      cases ek <;> cases econd <;> cases h <;>
        simp [widenFree, freeDom, freeSem, h0]

/-- The join fold over the out-edges applies no widening. -/
theorem widenFree_accumFold (st : ResultStore Nat FS) (es : List (Edge Nat))
    (a b : FS) (hst : ∀ pr ∈ st, ∀ x ∈ pr.2, widenFree x = true)
    (ha : widenFree a = true)
    (h : es.foldl (accumStep freeDom freeSem st) (some a) = some b) :
    widenFree b = true := by
  induction es generalizing a with
  | nil => cases h; exact ha
  | cons e es ih =>
    rw [List.foldl_cons] at h
    cases hs : edgeSuccessor freeDom freeSem st e with
    | none =>
      rw [show accumStep freeDom freeSem st (some a) e = none by
            unfold accumStep; rw [hs],
          accumStep_fold_none] at h
      cases h
    | some s =>
      rw [show accumStep freeDom freeSem st (some a) e = some (FS.joinF a s) by
            unfold accumStep; rw [hs]; rfl] at h
      refine ih (FS.joinF a s) ?_ h
      have := widenFree_edgeSuccessor st e s hst hs
      simp [widenFree, ha, this]

/-- The whole accumulation (backward.py lines 42-61) applies no widening. -/
theorem widenFree_computeAccum (cfg : ControlFlowGraph Nat) (st : ResultStore Nat FS)
    (current : Node Nat) (initial a : FS)
    (hst : ∀ pr ∈ st, ∀ x ∈ pr.2, widenFree x = true)
    (hinit : widenFree initial = true)
    (haccum : computeAccum freeDom freeSem initial cfg st current = some a) :
    widenFree a = true := by
  unfold computeAccum at haccum
  split at haccum
  · cases haccum; exact hinit
  · exact widenFree_accumFold st (cfg.outEdges current) FS.bot a hst rfl haccum

/-- The backward statement walk applies no widening. -/
theorem widenFree_statesFold (L : List Nat) (acc : List FS × FS)
    (h1 : ∀ x ∈ acc.1, widenFree x = true) (h2 : widenFree acc.2 = true) :
    ∀ s ∈ (L.foldl
      (fun (acc : List FS × FS) stmt =>
        let t := freeSem stmt acc.2
        (t :: acc.1, t)) acc).1, widenFree s = true := by
  induction L generalizing acc with
  | nil => exact h1
  | cons c L ih =>
    rw [List.foldl_cons]
    refine ih _ ?_ ?_
    · intro x hx
      rcases List.mem_cons.mp hx with h | h
      · subst h; simpa [freeSem, widenFree] using h2
      · exact h1 x h
    · simpa [freeSem, widenFree] using h2

/-- The stored sequence of a node applies no widening beyond its entry. -/
theorem widenFree_blockStates (current : Node Nat) (e : FS)
    (he : widenFree e = true) :
    ∀ s ∈ blockStates freeSem current e, widenFree s = true := by
  unfold blockStates
  cases hk : current.kind with
  | Basic stmts =>
    exact widenFree_statesFold stmts.reverse ([e], e)
      (by intro x hx; simp at hx; subst hx; exact he) he
  | Loop => intro s hs; simp at hs; subst hs; exact he
  | Conditional => intro s hs; simp at hs; subst hs; exact he

/-- A per-edge contribution with a stored, non-empty target sequence
agrees with the spec's per-edge contribution. -/
theorem edgeSuccessor_eq_specContrib {C S : Type} (dom : AbsDom S) (sem : C → S → S)
    (store : ResultStore C S) (e : Edge C) (l : List S)
    (hl : getNodeResult store e.target = some l) (hne : l ≠ []) :
    edgeSuccessor dom sem store e = some (specEdgeContrib dom sem store e) := by
  obtain ⟨src, tgt, k, cnd⟩ := e
  cases l with
  | nil => exact absurd rfl hne
  | cons s0 tl =>
    unfold edgeSuccessor specEdgeContrib
    rw [hl]
    cases k <;> cases cnd <;> rfl

/-- The join loop agrees with the spec's accumulation when every edge
target has a stored, non-empty sequence. -/
theorem accumFold_eq_specFold {C S : Type} (dom : AbsDom S) (sem : C → S → S)
    (store : ResultStore C S) (es : List (Edge C)) (a : S)
    (hes : ∀ e ∈ es, ∃ l, getNodeResult store e.target = some l ∧ l ≠ []) :
    es.foldl (accumStep dom sem store) (some a) =
      some (es.foldl (fun acc e => dom.join acc (specEdgeContrib dom sem store e)) a) := by
  induction es generalizing a with
  | nil => rfl
  | cons e es ih =>
    obtain ⟨l, hl, hne⟩ := hes e (by simp)
    rw [List.foldl_cons, List.foldl_cons,
        show accumStep dom sem store (some a) e =
            some (dom.join a (specEdgeContrib dom sem store e)) by
          unfold accumStep
          rw [edgeSuccessor_eq_specContrib dom sem store e l hl hne]]
    exact ih _ (fun e' he' => hes e' (by simp [he']))

/-- C1: the new post-state of a popped node is computed as the spec's
case split — the supplied initial state for the out-node, otherwise the
join, started from `bottom()`, over all out-edges of the target's
stored entry-0 state transformed by the inverse scope operator of the
edge kind and, for a conditional edge, by `semantics()` of the condition
followed by `filter()`.  Stated for pops whose out-edge targets all hold
a stored, non-empty sequence (the situation the claim's formula
describes; an unset target instead makes the code fail, settled under
C2). -/
theorem poststate_matches_spec_case_split {C S : Type} (dom : AbsDom S)
    (sem : C → S → S) (initial : S) (cfg : ControlFlowGraph C)
    (st : ResultStore C S) (current : Node C)
    (h : ∀ e ∈ cfg.outEdges current, (getNodeResult st e.target).getD [] ≠ []) :
    computeAccum dom sem initial cfg st current =
      some (specPostState dom sem initial cfg st current) := by
  have h' : ∀ e ∈ cfg.outEdges current,
      ∃ l, getNodeResult st e.target = some l ∧ l ≠ [] := by
    intro e he
    cases hg : getNodeResult st e.target with
    | none =>
      have := h e he
      rw [hg] at this
      exact absurd rfl this
    | some l =>
      refine ⟨l, rfl, ?_⟩
      have := h e he
      rw [hg] at this
      exact this
  unfold computeAccum specPostState
  by_cases hout : current.id = cfg.out_node.id
  · rw [if_pos hout, if_pos hout]
  · rw [if_neg hout, if_neg hout]
    exact accumFold_eq_specFold dom sem st (cfg.outEdges current) dom.bottom h'

/-- Witness for C1 at the basic block of `lineCFG` with its successor
(the out-node) stored. -/
theorem poststate_matches_spec_case_split_witness :
    computeAccum freeDom freeSem FS.initS lineCFG
        [(⟨2, .Basic []⟩, [FS.initS])] ⟨1, .Basic [1, 2]⟩ =
      some (specPostState freeDom freeSem FS.initS lineCFG
        [(⟨2, .Basic []⟩, [FS.initS])] ⟨1, .Basic [1, 2]⟩) :=
  poststate_matches_spec_case_split freeDom freeSem FS.initS lineCFG
    [(⟨2, .Basic []⟩, [FS.initS])] ⟨1, .Basic [1, 2]⟩ (by decide)

/-- C3 amended: widening is applied exactly when the popped node is a
Loop node *other than the out-node* whose iteration count exceeds the
threshold (the widening block, backward.py lines 62-64, sits inside the
`current != out_node` branch); in that case the accumulated post-state
`a` is replaced by `previous.widening(a)` with `bottom()` substituted
for an undefined `previous`, and no other point in the pop applies
widening: over the free domain (where a widening application is
syntactically a `widen` term) the accumulated value, the exit state of
every other pop, and the statement walk are all widening-free whenever
the stored sequences and the initial state are. -/
theorem widening_exact_application_point (cfg : ControlFlowGraph Nat)
    (st : ResultStore Nat FS) (current : Node Nat) (w it : Nat)
    (previous : Option FS) (initial a : FS)
    (hst : ∀ pr ∈ st, ∀ x ∈ pr.2, widenFree x = true)
    (hinit : widenFree initial = true)
    (haccum : computeAccum freeDom freeSem initial cfg st current = some a) :
    widenFree a = true
    ∧ (current.id ≠ cfg.out_node.id → current.isLoop = true → w < it →
        computeEntry freeDom freeSem w initial cfg st current it previous =
          some (FS.widen (previous.getD FS.bot) a))
    ∧ (current.id = cfg.out_node.id ∨ current.isLoop = false ∨ ¬ w < it →
        computeEntry freeDom freeSem w initial cfg st current it previous = some a)
    ∧ (∀ e, widenFree e = true →
        ∀ s ∈ blockStates freeSem current e, widenFree s = true) := by
  have hwf := widenFree_computeAccum cfg st current initial a hst hinit haccum
  refine ⟨hwf, ?_, ?_, fun e he => widenFree_blockStates current e he⟩
  · intro hne hloop hlt
    unfold computeEntry
    rw [haccum]
    show some (if current.id = cfg.out_node.id then a
               else applyWidening freeDom w current it previous a) = _
    rw [if_neg hne]
    unfold applyWidening
    rw [if_pos ⟨hloop, hlt⟩]
    rfl
  · intro hcase
    unfold computeEntry
    rw [haccum]
    show some (if current.id = cfg.out_node.id then a
               else applyWidening freeDom w current it previous a) = _
    by_cases hout : current.id = cfg.out_node.id
    · rw [if_pos hout]
    · rw [if_neg hout]
      unfold applyWidening
      have hnc : ¬(current.isLoop = true ∧ w < it) := by
        rcases hcase with h | h | h
        · exact absurd h hout
        · exact fun hp => by rw [h] at hp; exact Bool.false_ne_true hp.1
        · exact fun hp => h hp.2
      rw [if_neg hnc]

/-- Witness for C3's amended theorem at the loop header of Scenario C:
both the widening case (the header, iteration 2, threshold 1) and the
widening-free shape of the accumulated value are exhibited. -/
theorem widening_exact_application_point_witness :
    (widenFree (FS.joinF (FS.joinF FS.bot (FS.exitLoopF FS.initS))
        (FS.filt (FS.semF 9 (FS.enterLoopF FS.initS)))) = true)
    ∧ ((⟨1, .Loop⟩ : Node Nat).id ≠ loopCFG.out_node.id →
        (⟨1, .Loop⟩ : Node Nat).isLoop = true → 1 < 2 →
        computeEntry freeDom freeSem 1 FS.initS loopCFG
            [(⟨2, .Basic [1]⟩, [FS.initS]), (⟨3, .Basic []⟩, [FS.initS])]
            ⟨1, .Loop⟩ 2 (some FS.initS) =
          some (FS.widen ((some FS.initS).getD FS.bot)
            (FS.joinF (FS.joinF FS.bot (FS.exitLoopF FS.initS))
              (FS.filt (FS.semF 9 (FS.enterLoopF FS.initS))))))
    ∧ ((⟨1, .Loop⟩ : Node Nat).id = loopCFG.out_node.id ∨
        (⟨1, .Loop⟩ : Node Nat).isLoop = false ∨ ¬ 1 < 2 →
        computeEntry freeDom freeSem 1 FS.initS loopCFG
            [(⟨2, .Basic [1]⟩, [FS.initS]), (⟨3, .Basic []⟩, [FS.initS])]
            ⟨1, .Loop⟩ 2 (some FS.initS) =
          some (FS.joinF (FS.joinF FS.bot (FS.exitLoopF FS.initS))
            (FS.filt (FS.semF 9 (FS.enterLoopF FS.initS)))))
    ∧ (∀ e, widenFree e = true →
        ∀ s ∈ blockStates freeSem (⟨1, .Loop⟩ : Node Nat) e, widenFree s = true) :=
  widening_exact_application_point loopCFG
    [(⟨2, .Basic [1]⟩, [FS.initS]), (⟨3, .Basic []⟩, [FS.initS])]
    ⟨1, .Loop⟩ 1 2 (some FS.initS) FS.initS
    (FS.joinF (FS.joinF FS.bot (FS.exitLoopF FS.initS))
      (FS.filt (FS.semF 9 (FS.enterLoopF FS.initS))))
    (by decide) rfl (by decide)

/-- Witness for C4's amended theorem: the second pop of the out-node of
`lineCFG` (already stored with post-state `initS`) hits the local
fixpoint and only consumes the worklist head. -/
theorem step8_exactly_on_recompute_witness :
    step freeDom freeSem 5 FS.initS lineCFG
        { worklist := [⟨2, .Basic []⟩],
          iterations := [(0, 0), (1, 0), (2, 1)],
          result := [(⟨2, .Basic []⟩, [FS.initS])],
          writes := 1,
          popLog := [2] } =
      if freeDom.less_equal FS.initS FS.initS then
        .next { worklist := [],
                iterations := [(0, 0), (1, 0), (2, 1)],
                result := [(⟨2, .Basic []⟩, [FS.initS])],
                writes := 1,
                popLog := [2] ++ [2] }
      else
        .next { worklist := [] ++ lineCFG.predecessors ⟨2, .Basic []⟩,
                iterations := iterSet [(0, 0), (1, 0), (2, 1)] 2 (1 + 1),
                result := setNodeResult [(⟨2, .Basic []⟩, [FS.initS])]
                  ⟨2, .Basic []⟩ (blockStates freeSem ⟨2, .Basic []⟩ FS.initS),
                writes := 1 + 1,
                popLog := [2] ++ [2] } :=
  step8_exactly_on_recompute freeDom freeSem 5 FS.initS lineCFG _
    ⟨2, .Basic []⟩ [] 1 [FS.initS] FS.initS FS.initS rfl (by decide) (by decide)
    (by decide) (by decide)

/-- The backward statement walk grows the sequence by one per statement. -/
theorem statesFold_length {C S : Type} (sem : C → S → S) (L : List C)
    (acc : List S × S) :
    ((L.foldl
      (fun (acc : List S × S) stmt =>
        let t := sem stmt acc.2
        (t :: acc.1, t)) acc).1).length = acc.1.length + L.length := by
  induction L generalizing acc with
  | nil => simp
  | cons c L ih =>
    rw [List.foldl_cons, ih]
    simp
    omega

/-- The stored sequence of a node has the spec's expected length. -/
theorem blockStates_length {C S : Type} (sem : C → S → S) (n : Node C) (e : S) :
    (blockStates sem n e).length = expectedLen n := by
  unfold blockStates expectedLen
  cases n.kind with
  | Basic stmts =>
    rw [statesFold_length]
    simp
    omega
  | Loop => rfl
  | Conditional => rfl

/-- The backward statement walk only prepends: the last element stays. -/
theorem statesFold_getLast {C S : Type} (sem : C → S → S) (L : List C)
    (x : S) (xs : List S) (cur : S) :
    ((L.foldl
      (fun (acc : List S × S) stmt =>
        let t := sem stmt acc.2
        (t :: acc.1, t)) (x :: xs, cur)).1).getLast? = (x :: xs).getLast? := by
  induction L generalizing x xs cur with
  | nil => rfl
  | cons c L ih =>
    rw [List.foldl_cons]
    exact (ih _ _ _).trans List.getLast?_cons_cons

/-- The last element of a stored sequence is the node's new post-state. -/
theorem blockStates_getLast {C S : Type} (sem : C → S → S) (n : Node C) (e : S) :
    (blockStates sem n e).getLast? = some e := by
  unfold blockStates
  cases n.kind with
  | Basic stmts => rw [statesFold_getLast]; rfl
  | Loop => rfl
  | Conditional => rfl

/-- An entry of the store after `set_node_result` is the new entry or an
old one. -/
theorem mem_setNodeResult {C S : Type} (store : ResultStore C S) (n : Node C)
    (states : List S) (pr : Node C × List S)
    (h : pr ∈ setNodeResult store n states) : pr = (n, states) ∨ pr ∈ store := by
  induction store with
  | nil =>
    unfold setNodeResult at h
    simp at h
    exact Or.inl h
  | cons p rest ih =>
    unfold setNodeResult at h
    by_cases hid : p.1.id = n.id
    · rw [if_pos hid] at h
      rcases List.mem_cons.mp h with h | h
      · exact Or.inl h
      · exact Or.inr (List.mem_cons_of_mem p h)
    · rw [if_neg hid] at h
      rcases List.mem_cons.mp h with h | h
      · exact Or.inr (h ▸ List.mem_cons_self p rest)
      · rcases ih h with h | h
        · exact Or.inl h
        · exact Or.inr (List.mem_cons_of_mem p h)

/-- One worklist iteration preserves the shape invariant of the store:
every stored sequence is a `blockStates` sequence of its node. -/
theorem step_preserves_storeInv {C S : Type} (dom : AbsDom S) (sem : C → S → S)
    (w : Nat) (initial : S) (cfg : ControlFlowGraph C) (c c' : Config C S)
    (hinv : ∀ pr ∈ c.result, ∃ e, pr.2 = blockStates sem pr.1 e)
    (h : step dom sem w initial cfg c = .next c') :
    ∀ pr ∈ c'.result, ∃ e, pr.2 = blockStates sem pr.1 e := by
  obtain ⟨wl, its, res, wr, log⟩ := c
  simp only [] at hinv
  cases wl with
  | nil => cases h
  | cons current rest =>
    unfold step at h
    simp only [] at h
    cases hit : iterLookup its current.id with
    | none => rw [hit] at h; cases h
    | some it =>
      rw [hit] at h
      simp only [] at h
      cases hres : getNodeResult res current with
      | none =>
        rw [hres] at h
        simp only [] at h
        cases hentry : computeEntry dom sem w initial cfg res current it none with
        | none => rw [hentry] at h; cases h
        | some entry =>
          rw [hentry] at h
          simp only [] at h
          cases h
          intro pr hpr
          rcases mem_setNodeResult _ _ _ _ hpr with heq | hmem
          · exact ⟨entry, by rw [heq]⟩
          · exact hinv pr hmem
      | some l =>
        rw [hres] at h
        simp only [] at h
        cases hlast : l.getLast? with
        | none => rw [hlast] at h; cases h
        | some p =>
          rw [hlast] at h
          simp only [] at h
          cases hentry : computeEntry dom sem w initial cfg res current it (some p) with
          | none => rw [hentry] at h; cases h
          | some entry =>
            rw [hentry] at h
            simp only [] at h
            by_cases hle : dom.less_equal entry p = true
            · rw [if_pos hle] at h
              cases h
              exact hinv
            · rw [if_neg hle] at h
              cases h
              intro pr hpr
              rcases mem_setNodeResult _ _ _ _ hpr with heq | hmem
              · exact ⟨entry, by rw [heq]⟩
              · exact hinv pr hmem

/-- The worklist loop preserves the shape invariant of the store. -/
theorem run_preserves_storeInv {C S : Type} (dom : AbsDom S) (sem : C → S → S)
    (w : Nat) (initial : S) (cfg : ControlFlowGraph C) (fuel : Nat)
    (c c' : Config C S)
    (hinv : ∀ pr ∈ c.result, ∃ e, pr.2 = blockStates sem pr.1 e)
    (h : run dom sem w initial cfg fuel c = .finished c') :
    ∀ pr ∈ c'.result, ∃ e, pr.2 = blockStates sem pr.1 e := by
  induction fuel generalizing c with
  | zero => cases h
  | succ n ih =>
    unfold run at h
    cases hs : step dom sem w initial cfg c with
    | done => rw [hs] at h; cases h; exact hinv
    | fail => rw [hs] at h; cases h
    | next c2 =>
      rw [hs] at h
      exact ih c2 (step_preserves_storeInv dom sem w initial cfg c c2 hinv hs) h

/-- C6: every sequence stored by `analyze` satisfies the length
invariant — a Basic node with `k` statements stores exactly `k+1`
entries, built by walking the statements in reverse from the new
post-state (`blockStates`), and a Loop or Conditional node stores
exactly one entry — provided the pre-seeded store already satisfied the
shape invariant (trivially so for the empty store of a fresh run). -/
theorem stored_sequence_length_invariant {C S : Type} (dom : AbsDom S)
    (sem : C → S → S) (w fuel : Nat) (initial : S) (cfg : ControlFlowGraph C)
    (st0 st' : ResultStore C S)
    (h0 : ∀ pr ∈ st0, ∃ e, pr.2 = blockStates sem pr.1 e)
    (h : (analyzeWith fuel st0 dom sem w initial cfg).storeOf = some st') :
    ∀ pr ∈ st', pr.2.length = expectedLen pr.1 ∧ ∃ e, pr.2 = blockStates sem pr.1 e := by
  cases hr : analyzeWith fuel st0 dom sem w initial cfg with
  | finished c =>
    rw [hr] at h
    simp only [RunResult.storeOf, Option.some.injEq] at h
    subst h
    unfold analyzeWith at hr
    have hall := run_preserves_storeInv dom sem w initial cfg fuel _ c h0 hr
    intro pr hpr
    obtain ⟨e, he⟩ := hall pr hpr
    exact ⟨by rw [he, blockStates_length], ⟨e, he⟩⟩
  | fail => rw [hr] at h; cases h
  | fuelOut => rw [hr] at h; cases h

/-- Witness for C6: in the finished run on `lineCFG`, the sequence
stored for the two-statement basic block has length 3 = 2 + 1. -/
theorem stored_sequence_length_invariant_witness :
    ([FS.semF 1 (FS.semF 2 (FS.joinF FS.bot FS.initS)),
      FS.semF 2 (FS.joinF FS.bot FS.initS),
      FS.joinF FS.bot FS.initS] : List FS).length =
      expectedLen (⟨1, .Basic [1, 2]⟩ : Node Nat) :=
  (stored_sequence_length_invariant freeDom freeSem 5 20 FS.initS lineCFG []
    [(⟨2, .Basic []⟩, [FS.initS]),
     (⟨1, .Basic [1, 2]⟩,
      [FS.semF 1 (FS.semF 2 (FS.joinF FS.bot FS.initS)),
       FS.semF 2 (FS.joinF FS.bot FS.initS),
       FS.joinF FS.bot FS.initS]),
     (⟨0, .Basic []⟩,
      [FS.joinF FS.bot
        (FS.semF 1 (FS.semF 2 (FS.joinF FS.bot FS.initS)))])]
    (by simp) (by decide)
    (⟨1, .Basic [1, 2]⟩,
     [FS.semF 1 (FS.semF 2 (FS.joinF FS.bot FS.initS)),
      FS.semF 2 (FS.joinF FS.bot FS.initS),
      FS.joinF FS.bot FS.initS])
    (by decide)).1

/-- Lookup after `set_node_result` at the written key. -/
theorem getNodeResult_set_same {C S : Type} (st : ResultStore C S) (n m : Node C)
    (states : List S) (h : m.id = n.id) :
    getNodeResult (setNodeResult st n states) m = some states := by
  induction st with
  | nil =>
    unfold setNodeResult getNodeResult
    rw [List.find?_cons_of_pos _ (by simpa using h.symm)]
    rfl
  | cons p rest ih =>
    unfold setNodeResult
    by_cases hp : p.1.id = n.id
    · rw [if_pos hp]
      unfold getNodeResult
      rw [List.find?_cons_of_pos _ (by simpa using h.symm)]
      rfl
    · rw [if_neg hp]
      unfold getNodeResult
      rw [List.find?_cons_of_neg _ (by simpa using fun hc => hp (hc.trans h))]
      exact ih

/-- Lookup after `set_node_result` at a different key. -/
theorem getNodeResult_set_other {C S : Type} (st : ResultStore C S) (n m : Node C)
    (states : List S) (h : ¬ m.id = n.id) :
    getNodeResult (setNodeResult st n states) m = getNodeResult st m := by
  induction st with
  | nil =>
    unfold setNodeResult getNodeResult
    rw [List.find?_cons_of_neg _ (by simpa using fun hc => h hc.symm)]
  | cons p rest ih =>
    unfold setNodeResult
    by_cases hp : p.1.id = n.id
    · rw [if_pos hp]
      unfold getNodeResult
      rw [List.find?_cons_of_neg _ (by simpa using fun hc => h hc.symm),
          List.find?_cons_of_neg _ (by simpa using fun hc => h (hc.symm.trans hp))]
    · rw [if_neg hp]
      unfold getNodeResult
      by_cases hm : p.1.id = m.id
      · rw [List.find?_cons_of_pos _ (by simpa using hm),
            List.find?_cons_of_pos _ (by simpa using hm)]
      · rw [List.find?_cons_of_neg _ (by simpa using hm),
            List.find?_cons_of_neg _ (by simpa using hm)]
        exact ih

/-- Store lookup depends only on the node identifier. -/
theorem getNodeResult_congr {C S : Type} (st : ResultStore C S) (a b : Node C)
    (h : a.id = b.id) : getNodeResult st a = getNodeResult st b := by
  unfold getNodeResult
  rw [h]

/-- A `done` worklist iteration only happens on an empty worklist. -/
theorem step_done_worklist {C S : Type} (dom : AbsDom S) (sem : C → S → S)
    (w : Nat) (initial : S) (cfg : ControlFlowGraph C) (c : Config C S)
    (h : step dom sem w initial cfg c = .done) : c.worklist = [] := by
  obtain ⟨wl, its, res, wr, log⟩ := c
  cases wl with
  | nil => rfl
  | cons current rest =>
    unfold step at h
    simp only [] at h
    cases hit : iterLookup its current.id with
    | none => rw [hit] at h; cases h
    | some it =>
      rw [hit] at h
      simp only [] at h
      cases hres : getNodeResult res current with
      | none =>
        rw [hres] at h
        simp only [] at h
        cases hentry : computeEntry dom sem w initial cfg res current it none with
        | none => rw [hentry] at h; cases h
        | some entry => rw [hentry] at h; simp only [] at h; cases h
      | some l =>
        rw [hres] at h
        simp only [] at h
        cases hlast : l.getLast? with
        | none => rw [hlast] at h; cases h
        | some p =>
          rw [hlast] at h
          simp only [] at h
          cases hentry : computeEntry dom sem w initial cfg res current it (some p) with
          | none => rw [hentry] at h; cases h
          | some entry =>
            rw [hentry] at h
            simp only [] at h
            by_cases hle : dom.less_equal entry p = true
            · rw [if_pos hle] at h; cases h
            · rw [if_neg hle] at h; cases h

/-- One worklist iteration preserves the out-node invariant: any
sequence stored under the out-node's identifier ends in the supplied
initial state, and while the out-node has no stored sequence it is still
on the worklist. -/
theorem step_preserves_outInv {C S : Type} (dom : AbsDom S) (sem : C → S → S)
    (w : Nat) (initial : S) (cfg : ControlFlowGraph C) (c c' : Config C S)
    (h : step dom sem w initial cfg c = .next c')
    (hP : ∀ l, getNodeResult c.result cfg.out_node = some l → l.getLast? = some initial)
    (hQ : getNodeResult c.result cfg.out_node = none → cfg.out_node ∈ c.worklist) :
    (∀ l, getNodeResult c'.result cfg.out_node = some l → l.getLast? = some initial)
    ∧ (getNodeResult c'.result cfg.out_node = none → cfg.out_node ∈ c'.worklist) := by
  obtain ⟨wl, its, res, wr, log⟩ := c
  simp only [] at hP hQ
  cases wl with
  | nil => cases h
  | cons current rest =>
    unfold step at h
    simp only [] at h
    cases hit : iterLookup its current.id with
    | none => rw [hit] at h; cases h
    | some it =>
      rw [hit] at h
      simp only [] at h
      cases hres : getNodeResult res current with
      | none =>
        rw [hres] at h
        simp only [] at h
        cases hentry : computeEntry dom sem w initial cfg res current it none with
        | none => rw [hentry] at h; cases h
        | some entry =>
          rw [hentry] at h
          simp only [] at h
          cases h
          constructor
          · intro l hl
            by_cases hid : cfg.out_node.id = current.id
            · rw [getNodeResult_set_same res current cfg.out_node _ hid] at hl
              cases hl
              have hcur : current.id = cfg.out_node.id := hid.symm
              unfold computeEntry computeAccum at hentry
              rw [if_pos hcur] at hentry
              simp only [] at hentry
              rw [if_pos hcur] at hentry
              cases hentry
              exact blockStates_getLast sem current initial
            · rw [getNodeResult_set_other res current cfg.out_node _ hid] at hl
              exact hP l hl
          · intro hnone
            by_cases hid : cfg.out_node.id = current.id
            · rw [getNodeResult_set_same res current cfg.out_node _ hid] at hnone
              cases hnone
            · rw [getNodeResult_set_other res current cfg.out_node _ hid] at hnone
              rcases List.mem_cons.mp (hQ hnone) with heq | hmem
              · exact absurd (congrArg Node.id heq) hid
              · exact List.mem_append_left _ hmem
      | some l =>
        rw [hres] at h
        simp only [] at h
        cases hlast : l.getLast? with
        | none => rw [hlast] at h; cases h
        | some p =>
          rw [hlast] at h
          simp only [] at h
          cases hentry : computeEntry dom sem w initial cfg res current it (some p) with
          | none => rw [hentry] at h; cases h
          | some entry =>
            rw [hentry] at h
            simp only [] at h
            by_cases hle : dom.less_equal entry p = true
            · rw [if_pos hle] at h
              cases h
              refine ⟨hP, fun hnone => ?_⟩
              rcases List.mem_cons.mp (hQ hnone) with heq | hmem
              · exfalso
                have hcg : getNodeResult res cfg.out_node = getNodeResult res current :=
                  getNodeResult_congr res _ _ (congrArg Node.id heq)
                rw [hnone, hres] at hcg
                cases hcg
              · exact hmem
            · rw [if_neg hle] at h
              cases h
              constructor
              · intro l2 hl2
                by_cases hid : cfg.out_node.id = current.id
                · rw [getNodeResult_set_same res current cfg.out_node _ hid] at hl2
                  cases hl2
                  have hcur : current.id = cfg.out_node.id := hid.symm
                  unfold computeEntry computeAccum at hentry
                  rw [if_pos hcur] at hentry
                  simp only [] at hentry
                  rw [if_pos hcur] at hentry
                  cases hentry
                  exact blockStates_getLast sem current initial
                · rw [getNodeResult_set_other res current cfg.out_node _ hid] at hl2
                  exact hP l2 hl2
              · intro hnone
                by_cases hid : cfg.out_node.id = current.id
                · rw [getNodeResult_set_same res current cfg.out_node _ hid] at hnone
                  cases hnone
                · rw [getNodeResult_set_other res current cfg.out_node _ hid] at hnone
                  rcases List.mem_cons.mp (hQ hnone) with heq | hmem
                  · exact absurd (congrArg Node.id heq) hid
                  · exact List.mem_append_left _ hmem

/-- A finished run leaves the out-node stored with a sequence whose last
entry is the supplied initial state. -/
theorem run_out_stored {C S : Type} (dom : AbsDom S) (sem : C → S → S)
    (w : Nat) (initial : S) (cfg : ControlFlowGraph C) (fuel : Nat)
    (c c' : Config C S)
    (hP : ∀ l, getNodeResult c.result cfg.out_node = some l → l.getLast? = some initial)
    (hQ : getNodeResult c.result cfg.out_node = none → cfg.out_node ∈ c.worklist)
    (h : run dom sem w initial cfg fuel c = .finished c') :
    ∃ l, getNodeResult c'.result cfg.out_node = some l ∧ l.getLast? = some initial := by
  induction fuel generalizing c with
  | zero => cases h
  | succ n ih =>
    unfold run at h
    cases hs : step dom sem w initial cfg c with
    | done =>
      rw [hs] at h
      have hcc : c = c' := by cases h; rfl
      subst hcc
      cases hg : getNodeResult c.result cfg.out_node with
      | none =>
        have hm := hQ hg
        rw [step_done_worklist dom sem w initial cfg c hs] at hm
        cases hm
      | some l => exact ⟨l, rfl, hP l hg⟩
    | fail => rw [hs] at h; cases h
    | next c2 =>
      rw [hs] at h
      obtain ⟨hP2, hQ2⟩ := step_preserves_outInv dom sem w initial cfg c c2 hs hP hQ
      exact ih c2 hP2 hQ2 h

/-- C8: fixpoint stability — re-running `analyze` with the result store
pre-seeded with a previous run's fixpoint (same CFG, same domain with
`less_equal` reflexive at the initial state, same initial state)
triggers zero further node re-expansions: the run pops the out-node
once, hits the local fixpoint immediately, performs zero
`set_node_result` calls, pushes no predecessors, and returns the store
unchanged. -/
theorem rerun_on_fixpoint_no_reexpansion {C S : Type} (dom : AbsDom S)
    (sem : C → S → S) (w fuel1 fuel2 : Nat) (initial : S)
    (cfg : ControlFlowGraph C) (st : ResultStore C S)
    (h1 : (analyze fuel1 dom sem w initial cfg).storeOf = some st)
    (hrefl : dom.less_equal initial initial = true) :
    analyzeWith (fuel2 + 2) st dom sem w initial cfg =
      .finished { worklist := [],
                  iterations := cfg.nodes.map (fun n => (n.id, 0)),
                  result := st,
                  writes := 0,
                  popLog := [cfg.out_node.id] } := by
  cases hr : analyze fuel1 dom sem w initial cfg with
  | fail => rw [hr] at h1; cases h1
  | fuelOut => rw [hr] at h1; cases h1
  | finished c1 =>
    rw [hr] at h1
    simp only [RunResult.storeOf, Option.some.injEq] at h1
    subst h1
    unfold analyze analyzeWith at hr
    have hout : ∃ l, getNodeResult c1.result cfg.out_node = some l ∧
        l.getLast? = some initial := by
      refine run_out_stored dom sem w initial cfg fuel1 _ c1 ?_ ?_ hr
      · intro l hl
        simp [getNodeResult, emptyStore] at hl
      · intro _
        simp
    obtain ⟨l, hl, hlast⟩ := hout
    have hiter : ∃ it,
        iterLookup (cfg.nodes.map (fun n => (n.id, 0))) cfg.out_node.id = some it := by
      cases fuel1 with
      | zero => cases hr
      | succ n =>
        unfold run at hr
        cases hit : iterLookup (cfg.nodes.map (fun n => (n.id, 0))) cfg.out_node.id with
        | some it => exact ⟨it, rfl⟩
        | none =>
          rw [show step dom sem w initial cfg
                ⟨[cfg.out_node], cfg.nodes.map (fun n => (n.id, 0)),
                 emptyStore C S, 0, []⟩ = .fail from by
              unfold step
              simp only []
              rw [hit]] at hr
          cases hr
    obtain ⟨it0, hit0⟩ := hiter
    have hstep : step dom sem w initial cfg
          ⟨[cfg.out_node], cfg.nodes.map (fun n => (n.id, 0)),
           c1.result, 0, []⟩ =
        .next ⟨[], cfg.nodes.map (fun n => (n.id, 0)), c1.result, 0,
               [cfg.out_node.id]⟩ := by
      unfold step
      simp only []
      rw [hit0]
      simp only []
      rw [hl]
      simp only []
      rw [hlast]
      simp only []
      rw [show computeEntry dom sem w initial cfg c1.result cfg.out_node it0
            (some initial) = some initial from by
          unfold computeEntry computeAccum
          rw [if_pos rfl]
          simp]
      simp only []
      rw [if_pos hrefl]
      rfl
    unfold analyzeWith
    show run dom sem w initial cfg (fuel2 + 1 + 1) _ = _
    simp only [run]
    rw [hstep]
    rfl

/-- Witness for C8: re-running on `lineCFG` with the first run's store
pre-seeded finishes with zero writes and the store unchanged. -/
theorem rerun_on_fixpoint_no_reexpansion_witness :
    analyzeWith (5 + 2)
        [(⟨2, .Basic []⟩, [FS.initS]),
         (⟨1, .Basic [1, 2]⟩,
          [FS.semF 1 (FS.semF 2 (FS.joinF FS.bot FS.initS)),
           FS.semF 2 (FS.joinF FS.bot FS.initS),
           FS.joinF FS.bot FS.initS]),
         (⟨0, .Basic []⟩,
          [FS.joinF FS.bot
            (FS.semF 1 (FS.semF 2 (FS.joinF FS.bot FS.initS)))])]
        freeDom freeSem 5 FS.initS lineCFG =
      .finished { worklist := [],
                  iterations := lineCFG.nodes.map (fun n => (n.id, 0)),
                  result :=
                    [(⟨2, .Basic []⟩, [FS.initS]),
                     (⟨1, .Basic [1, 2]⟩,
                      [FS.semF 1 (FS.semF 2 (FS.joinF FS.bot FS.initS)),
                       FS.semF 2 (FS.joinF FS.bot FS.initS),
                       FS.joinF FS.bot FS.initS]),
                     (⟨0, .Basic []⟩,
                      [FS.joinF FS.bot
                        (FS.semF 1 (FS.semF 2 (FS.joinF FS.bot FS.initS)))])],
                  writes := 0,
                  popLog := [lineCFG.out_node.id] } :=
  rerun_on_fixpoint_no_reexpansion freeDom freeSem 5 20 5 FS.initS lineCFG
    _ (by decide) rfl

end Lyra
